import Mathlib

/-!
Verification of erigon's Merkle-Patricia-Trie proof construction and
verification unit (package trie: Prove, decodeNode/decodeShort/decodeFull/
decodeRef, proofMap, verifyProof, VerifyAccountProofByHash,
VerifyStorageProofByHash).

The unit's collaborators (the RLP codec, the keccak hash primitive, the
in-memory node model and the hasher) live outside this unit; they are
modelled from the spec as noted on each definition.  The hash primitive is an
explicit function parameter everywhere (the spec treats it as an opaque
32-byte digest function), so concrete theorems can instantiate it with a
simple injective-on-the-relevant-inputs stand-in.

Loops and non-structural recursions are embedded with an explicit fuel
argument so that every definition reduces inside the kernel; each wrapper
supplies fuel that dominates the loop's real iteration count (traversal
work per the spec is linear in input size).  Fuel exhaustion yields the
dedicated error `fuelMsg`, used by no source code path.
-/

namespace ETP

/-- Bytes are lists of naturals; every value produced by the encoders is
below 256.  Nibble arrays (hex keys) use the same representation with
values 0..16 (16 is the terminator marker). -/
abbrev Bytes := List Nat

/-! ### Error strings (fixed prefixes of the source's error messages) -/

def fuelMsg : String := "out of fuel"

def eofErr : String := "unexpected EOF"

def canonErr : String := "non-canonical size information"

def tooLargeErr : String := "value size exceeds available input length"

def expectedStringErr : String := "rlp: expected String or Byte"

def expectedListErr : String := "rlp: expected List"

def embErr : String := "embedded nodes must be less than hash size"

def strSizeErr : String := "invalid RLP string size"

def zeroLenErr : String := "nodes must not be zero length"

def arityErr : String := "invalid number of list elements"

def fullValErr : String := "full nodes should not have values"

def shortLenErr : String := "len of shortHex must be leq len of key"

def missingErr : String := "missing hash"

def orderErr : String := "proof elements present but not in expected order"

def valKeyErr : String := "value node should have zero length remaining in key"

def notAllUsedErr : String := "not all proof elements were used"

def unexpectedTypeErr : String := "unexpected type"

def hashNodeProveErr : String := "encountered hashNode unexpectedly"

def pmWrapErr : String := "could not construct proofMap: "

def vpWrapErr : String := "could not verify proof: "

def nonceErr : String := "account is not in state, but has non-zero nonce"

def balanceErr : String := "account is not in state, but has balance"

def storageHashErr : String := "account is not in state, but has non-empty storage hash"

def codeHashErr : String := "account is not in state, but has non-empty code hash"

def accountMismatchErr : String := "account bytes from proof do not match expected"

def emptyRootValErr : String := "empty storage root cannot have non-zero values"

def emptyRootEncErr : String := "empty storage root should have RLP encoding of empty proof"

def zeroRootEncErr : String := "zero storage root should have empty proof"

def storMismatchErr : String := "storage value from proof does not match expected"

/-! ### RLP codec.

Modelled from the spec: the canonical encoding codec collaborator
(erigon-lib/rlp, outside this unit).  `rlpSplit` is `rlp.Split`: it
classifies the first item of a serialized buffer as a single byte, a string
or a list, returning the item's content and the remaining bytes, enforcing
canonical (minimal) size encodings. -/

inductive RlpKind where
  | byteK : RlpKind
  | strK : RlpKind
  | listK : RlpKind
deriving DecidableEq, Repr

/-- Big-endian value of a byte string. -/
def beVal (b : Bytes) : Nat := b.foldl (fun a x => a * 256 + x) 0

/-- Modelled from the spec: `rlp.Split` of the canonical encoding codec. -/
def rlpSplit (buf : Bytes) : Except String (RlpKind × Bytes × Bytes) :=
  match buf with
  | [] => .error eofErr
  | b :: rest =>
    if b < 0x80 then .ok (.byteK, [b], rest)
    else if b < 0xB8 then
      let size := b - 0x80
      if size = 1 ∧ rest ≠ [] ∧ rest.headD 0 < 0x80 then .error canonErr
      else if rest.length < size then .error tooLargeErr
      else .ok (.strK, rest.take size, rest.drop size)
    else if b < 0xC0 then
      let sl := b - 0xB7
      if rest.length < sl then .error tooLargeErr
      else if rest.headD 0 = 0 then .error canonErr
      else
        let sz := beVal (rest.take sl)
        if sz < 56 then .error canonErr
        else if (rest.drop sl).length < sz then .error tooLargeErr
        else .ok (.strK, (rest.drop sl).take sz, (rest.drop sl).drop sz)
    else if b < 0xF8 then
      let size := b - 0xC0
      if rest.length < size then .error tooLargeErr
      else .ok (.listK, rest.take size, rest.drop size)
    else
      let sl := b - 0xF7
      if rest.length < sl then .error tooLargeErr
      else if rest.headD 0 = 0 then .error canonErr
      else
        let sz := beVal (rest.take sl)
        if sz < 56 then .error canonErr
        else if (rest.drop sl).length < sz then .error tooLargeErr
        else .ok (.listK, (rest.drop sl).take sz, (rest.drop sl).drop sz)

/-- Modelled from the spec: `rlp.SplitString` (content of a string item;
a list item is an error). -/
def splitString (buf : Bytes) : Except String (Bytes × Bytes) :=
  match rlpSplit buf with
  | .error e => .error e
  | .ok (.listK, _, _) => .error expectedStringErr
  | .ok (_, content, rest) => .ok (content, rest)

/-- Modelled from the spec: `rlp.SplitList` (content of a list item;
a string item is an error). -/
def splitList (buf : Bytes) : Except String (Bytes × Bytes) :=
  match rlpSplit buf with
  | .error e => .error e
  | .ok (.listK, content, rest) => .ok (content, rest)
  | .ok (_, _, _) => .error expectedListErr

/-- Modelled from the spec: `rlp.CountValues`, the number of top-level items
in a buffer.  Fuel-structural: each item consumes at least one byte, so
`buf.length + 1` fuel always suffices. -/
def countValuesF : Nat → Bytes → Except String Nat
  | 0, _ => .error fuelMsg
  | _, [] => .ok 0
  | f + 1, b :: rest =>
    match rlpSplit (b :: rest) with
    | .error e => .error e
    | .ok (_, _, r) =>
      match countValuesF f r with
      | .error e => .error e
      | .ok n => .ok (n + 1)

def countValues (buf : Bytes) : Except String Nat :=
  countValuesF (buf.length + 1) buf

/-! ### RLP encoding (used by the account/storage cross-checkers and the
hasher).  Modelled from the spec's canonical encoding codec. -/

/-- Minimal big-endian bytes of a natural number (fuel-structural). -/
def beBytesF : Nat → Nat → Bytes
  | 0, _ => []
  | f + 1, n => if n = 0 then [] else beBytesF f (n / 256) ++ [n % 256]

def beBytes (n : Nat) : Bytes := beBytesF (n + 1) n

/-- RLP encoding of a byte string. -/
def rlpStr (s : Bytes) : Bytes :=
  match s with
  | [b] => if b < 0x80 then [b] else [0x81, b]
  | _ => if s.length < 56 then (0x80 + s.length) :: s
         else (0xB7 + (beBytes s.length).length) :: (beBytes s.length ++ s)

/-- RLP encoding of a list given its already-encoded payload. -/
def rlpList (payload : Bytes) : Bytes :=
  if payload.length < 56 then (0xC0 + payload.length) :: payload
  else (0xF7 + (beBytes payload.length).length) :: (beBytes payload.length ++ payload)

/-- RLP encoding of an unsigned integer (minimal big-endian string). -/
def rlpUint (n : Nat) : Bytes := rlpStr (beBytes n)

/-! ### Key path encoding.

Modelled from the spec: nibble arrays with a terminator marker and the
compact (hex-prefix) path-key encoding (erigon's keybytesToHex /
CompactToKeybytes / ToHex, outside this unit). -/

/-- Expand a byte key into nibbles and append the terminator nibble 16. -/
def keybytesToHex (key : Bytes) : Bytes :=
  key.flatMap (fun b => [b / 16, b % 16]) ++ [16]

structure Keybytes where
  terminating : Bool
  nibbles : Bytes
deriving Repr

/-- Decode a compact path-key: flag bits of the first byte give the
terminating flag (0x20) and odd-length flag (0x10); an odd path keeps its
first nibble in the low half of the flag byte. -/
def CompactToKeybytes (c : Bytes) : Keybytes :=
  match c with
  | [] => { terminating := false, nibbles := [] }
  | b :: rest =>
    { terminating := (b / 32) % 2 = 1
      nibbles := (if (b / 16) % 2 = 1 then [b % 16] else []) ++
        rest.flatMap (fun x => [x / 16, x % 16]) }

/-- Hex form of a decoded path-key: its nibbles, with the terminator nibble
appended when the key terminates. -/
def Keybytes.ToHex (kb : Keybytes) : Bytes :=
  kb.nibbles ++ (if kb.terminating then [16] else [])

/-- Pack a nibble list two to a byte (even length assumed; a trailing odd
nibble is dropped). -/
def packNibs : Bytes → Bytes
  | a :: b :: r => (a * 16 + b) :: packNibs r
  | _ => []

/-- Compact (hex-prefix) encoding of a hex key that may carry the
terminator nibble 16. -/
def hexToCompact (hex : Bytes) : Bytes :=
  let t : Bool := hex.getLast? = some 16
  let nibs := if t then hex.dropLast else hex
  let flag := if t then 32 else 0
  if nibs.length % 2 = 0 then flag :: packNibs nibs
  else (flag + 16 + nibs.headD 0) :: packNibs nibs.tail

/-! ### Node model.

Modelled from the spec: the tagged-variant trie node representation.
`nilN` stands for Go's nil node interface (absent child / absent node);
`full`'s list holds the 17 children of a branch (slot 16 the optional
value).  `account` carries its canonical serialized record and the optional
storage sub-trie root. -/

inductive Node where
  | nilN : Node
  | short (key : Bytes) (val : Node) : Node
  | duo (i1 i2 : Nat) (c1 c2 : Node) : Node
  | full (children : List Node) : Node
  | account (enc : Bytes) (storage : Node) : Node
  | value (v : Bytes) : Node
  | hashn (h : Bytes) : Node

/-! ### Node codec (decodeRef / decodeShort / decodeFull / decodeNode from
the source).  The source functions are mutually recursive: `decodeRef`
re-enters `decodeNode` on an embedded child encoding.  The embedding ties
the knot through one fuel-structural function `decNodeF`; the `...Go`
helpers are the source functions with the recursive `decodeNode` passed as
the `nodeD` argument.  Every nested `decodeNode` re-entry strictly consumes
input bytes, so `length + 2` fuel always suffices. -/

/-- Source `decodeRef` (with `nodeD` standing for the recursive call to
`decodeNode`): resolve one child reference: an embedded list (legal only
when its serialized size is strictly below the 32-byte hash size), an
empty string (nil child), or a 32-byte hash reference. -/
def decRefGo (nodeD : Bytes → Except String Node) (buf : Bytes) :
    Except String (Node × Bytes) :=
  match rlpSplit buf with
  | .error e => .error e
  | .ok (kind, val, rest) =>
    match kind with
    | .listK =>
      if 32 ≤ buf.length - rest.length then .error embErr
      else
        match nodeD buf with
        | .error e => .error e
        | .ok n => .ok (n, rest)
    | .strK =>
      if val.length = 0 then .ok (.nilN, rest)
      else if val.length = 32 then .ok (.hashn val, rest)
      else .error strSizeErr
    | .byteK => .error strSizeErr

/-- Source `decodeShort`: a 2-item node; a terminating path-key takes a
literal string value, a non-terminating one takes a child reference. -/
def decShortGo (nodeD : Bytes → Except String Node) (elems : Bytes) :
    Except String Node :=
  match splitString elems with
  | .error e => .error e
  | .ok (kbuf, rest) =>
    let kb := CompactToKeybytes kbuf
    if kb.terminating then
      match splitString rest with
      | .error e => .error e
      | .ok (val, _) => .ok (.short kb.ToHex (.value val))
    else
      match decRefGo nodeD rest with
      | .error e => .error e
      | .ok (n, _) => .ok (.short kb.ToHex n)

/-- Children loop of source `decodeFull`: decode 16 child references. -/
def decChildrenGo (nodeD : Bytes → Except String Node) :
    Nat → Bytes → Except String (List Node × Bytes)
  | 0, elems => .ok ([], elems)
  | i + 1, elems =>
    match decRefGo nodeD elems with
    | .error e => .error e
    | .ok (n, rest) =>
      match decChildrenGo nodeD i rest with
      | .error e => .error e
      | .ok (l, r) => .ok (n :: l, r)

/-- Source `decodeFull`: a 17-item node; 16 child references then an
optional literal value in slot 16. -/
def decFullGo (nodeD : Bytes → Except String Node) (elems : Bytes) :
    Except String Node :=
  match decChildrenGo nodeD 16 elems with
  | .error e => .error e
  | .ok (cs, rest) =>
    match splitString rest with
    | .error e => .error e
    | .ok (val, _) =>
      .ok (.full (cs ++ [if 0 < val.length then .value val else .nilN]))

/-- Source `decodeNode` (fuel-structural): reject empty input, split the
outer list, and dispatch on the top-level item count (2 or 17); the
item-count error of `CountValues` is discarded, leaving count 0, exactly
as in the source. -/
def decNodeF : Nat → Bytes → Except String Node
  | 0, _ => .error fuelMsg
  | f + 1, encoded =>
    if encoded = [] then .error zeroLenErr
    else
      match splitList encoded with
      | .error e => .error e
      | .ok (elems, _) =>
        let c := match countValues elems with
          | .ok n => n
          | .error _ => 0
        if c = 2 then decShortGo (decNodeF f) elems
        else if c = 17 then decFullGo (decNodeF f) elems
        else .error arityErr

def decodeRef (buf : Bytes) : Except String (Node × Bytes) :=
  decRefGo (decNodeF (buf.length + 2)) buf

def decodeShort (elems : Bytes) : Except String Node :=
  decShortGo (decNodeF (elems.length + 2)) elems

def decodeFull (elems : Bytes) : Except String Node :=
  decFullGo (decNodeF (elems.length + 2)) elems

def decodeNode (encoded : Bytes) : Except String Node :=
  decNodeF (encoded.length + 2) encoded

/-- Error projection of an `Except` result (lets theorems speak about
success or the exact error without deciding equality of payloads). -/
def exErr {α : Type} : Except String α → Option String
  | .error e => some e
  | .ok _ => none

/-! ### Finite maps as association lists.

Modelled from the spec: Go's `map` values used by `proofMap` and
`verifyProof`, as association lists whose lookup is observationally the map:
insertion overwrites an existing binding in place or appends a fresh one,
so keys stay unique and lookup of the first match agrees with Go's map. -/

def mapLookup {α : Type} : List (Bytes × α) → Bytes → Option α
  | [], _ => none
  | (k, v) :: rest, h => if k = h then some v else mapLookup rest h

def mapInsert {α : Type} (k : Bytes) (v : α) : List (Bytes × α) → List (Bytes × α)
  | [] => [(k, v)]
  | (k0, v0) :: rest =>
    if k0 = k then (k, v) :: rest else (k0, v0) :: mapInsert k v rest

def mapErase {α : Type} (m : List (Bytes × α)) (k : Bytes) : List (Bytes × α) :=
  m.filter (fun p => p.1 ≠ k)

/-- Source `common.BytesToHash` / `Hash.SetBytes`: keep the last 32 bytes,
left-padding with zeros. -/
def setBytes32 (b : Bytes) : Bytes :=
  List.replicate (32 - b.length) 0 ++ b.drop (b.length - 32)

def zero32 : Bytes := List.replicate 32 0

/-- The canonical empty-trie root constant `EmptyRoot`
(keccak256 of the RLP encoding of the empty string). -/
def EmptyRoot : Bytes :=
  [0x56, 0xe8, 0x1f, 0x17, 0x1b, 0xcc, 0x55, 0xa6, 0xff, 0x83, 0x45, 0xe6,
   0x92, 0xc0, 0xf8, 0x6e, 0x5b, 0x48, 0xe0, 0x1b, 0x99, 0x6c, 0xad, 0xc0,
   0x01, 0x62, 0x2f, 0xb5, 0xe3, 0x63, 0xb4, 0x21]

/-! ### proofMap: hash every proof entry to its digest and build the
digest-to-decoded-node and digest-to-(original index, raw bytes) maps. -/

/-- One entry of the source's `rawProofElement`: original input index and
raw bytes. -/
abbrev RawElem := Nat × Bytes

/-- Iteration of source `proofMap`, carrying the running index and both
accumulated maps (the source fills both maps in one indexed loop). -/
def proofMapGo (keccak : Bytes → Bytes) :
    Nat → List Bytes → List (Bytes × Node) → List (Bytes × RawElem) →
    Except String (List (Bytes × Node) × List (Bytes × RawElem))
  | _, [], pm, um => .ok (pm, um)
  | i, p :: rest, pm, um =>
    match decodeNode p with
    | .error e => .error e
    | .ok nd =>
      proofMapGo keccak (i + 1) rest
        (mapInsert (keccak p) nd pm) (mapInsert (keccak p) (i, p) um)

/-- Source `proofMap`. -/
def proofMap (keccak : Bytes → Bytes) (proof : List Bytes) :
    Except String (List (Bytes × Node) × List (Bytes × RawElem)) :=
  proofMapGo keccak 0 proof [] []

/-! ### verifyProof: replay the traversal from the root hash, resolving
hash references from the proof maps in strict submission order.

`verifyLoopT` is the source's loop; it additionally returns the list of
original-input indices consumed at hash resolutions, in consumption order
(the trace is an observer only: the result component ignores it).  The
source loop terminates because every hash resolution strictly shrinks the
`used` map and the steps in between strictly descend a finite decoded node;
the embedding makes this explicit with fuel (first argument).  An `.ok`
with `none` is the source's `nil, nil` absence result. -/

/-- One iteration of the source `verifyProof` loop; `recur` is the rest of
the loop (the same loop at one unit less fuel). -/
def verifyStep (pm : List (Bytes × Node))
    (recur : List (Bytes × RawElem) → Nat → Node → Bytes →
      (Except String (Option Bytes)) × List Nat)
    (used : List (Bytes × RawElem)) (nextIndex : Nat) (node : Node)
    (key : Bytes) : (Except String (Option Bytes)) × List Nat :=
  match node with
  | .full children =>
    match key with
    | [] => (.error fullValErr, [])
    | k0 :: krest =>
      match children.getD k0 .nilN with
      | .nilN => (.ok none, [])
      | child => recur used nextIndex child krest
  | .short shortHex val =>
    if key.length < shortHex.length then (.error shortLenErr, [])
    else if shortHex ≠ key.take shortHex.length then (.ok none, [])
    else recur used nextIndex val (key.drop shortHex.length)
  | .hashn hb =>
    let h := setBytes32 hb
    match mapLookup pm h with
    | none => (.error missingErr, [])
    | some nd =>
      match mapLookup used h with
      | none => (.error missingErr, [])
      | some (i, _) =>
        if nextIndex ≠ i then (.error orderErr, [])
        else
          let r := recur (mapErase used h) (nextIndex + 1) nd key
          (r.1, nextIndex :: r.2)
  | .value v =>
    if key ≠ [] then (.error valKeyErr, [])
    else
      match used with
      | [] => (.ok (some v), [])
      | _ :: _ => (.error notAllUsedErr, [])
  | _ => (.error unexpectedTypeErr, [])

def verifyLoopT (pm : List (Bytes × Node)) :
    Nat → List (Bytes × RawElem) → Nat → Node → Bytes →
    (Except String (Option Bytes)) × List Nat
  | 0, _, _, _, _ => (.error fuelMsg, [])
  | f + 1, used, nextIndex, node, key =>
    verifyStep pm (verifyLoopT pm f) used nextIndex node key

/-- Fuel that dominates the loop's iteration count: one step per key
nibble, per byte of raw proof data (decoded structure is smaller than its
encoding), per proof entry, plus slack. -/
def verifyFuel (um : List (Bytes × RawElem)) (hexKey : Bytes) : Nat :=
  hexKey.length + (um.map (fun p => p.2.2.length)).sum + um.length + 4

/-- Source `verifyProof`: expand the key into nibbles (with terminator),
start from a hash reference to the root, and run the loop with the
expected-next-index counter at 0. -/
def verifyProof (root : Bytes) (key : Bytes) (pm : List (Bytes × Node))
    (used : List (Bytes × RawElem)) : Except String (Option Bytes) :=
  (verifyLoopT pm (verifyFuel used (keybytesToHex key)) used 0
    (.hashn root) (keybytesToHex key)).1

/-- The proofMap-then-verifyProof pipeline shared by the two by-hash
verifiers (spec section 4.3's `VerifyProof`). -/
def VerifyProofRaw (keccak : Bytes → Bytes) (root key : Bytes)
    (proof : List Bytes) : Except String (Option Bytes) :=
  match proofMap keccak proof with
  | .error e => .error e
  | .ok (pm, um) => verifyProof root key pm um

/-! ### Record cross-checkers. -/

/-- The fields of `accounts.AccProofResult` used by the verifier (the
balance is the spec's unsigned big integer, so its sign test is a zero
test). -/
structure AccProofResult where
  nonce : Nat
  balance : Nat
  storageHash : Bytes
  codeHash : Bytes
  accountProof : List Bytes

/-- Source `VerifyAccountProofByHash`. -/
def VerifyAccountProofByHash (keccak : Bytes → Bytes)
    (stateRoot accountKey : Bytes) (p : AccProofResult) :
    Except String Unit :=
  match proofMap keccak p.accountProof with
  | .error e => .error (pmWrapErr ++ e)
  | .ok (pm, um) =>
    match verifyProof stateRoot accountKey pm um with
    | .error e => .error (vpWrapErr ++ e)
    | .ok none =>
      if p.nonce ≠ 0 then .error nonceErr
      else if p.balance ≠ 0 then .error balanceErr
      else if p.storageHash ≠ zero32 then .error storageHashErr
      else if p.codeHash ≠ zero32 then .error codeHashErr
      else .ok ()
    | .ok (some value) =>
      let expected := rlpList (rlpUint p.nonce ++ rlpStr (beBytes p.balance) ++
        rlpStr p.storageHash ++ rlpStr p.codeHash)
      if expected ≠ value then .error accountMismatchErr else .ok ()

/-- The fields of `accounts.StorProofResult` used by the verifier. -/
structure StorProofResult where
  value : Nat
  proof : List Bytes

/-- Source `VerifyStorageProofByHash`. -/
def VerifyStorageProofByHash (keccak : Bytes → Bytes)
    (storageRoot keyHash : Bytes) (p : StorProofResult) :
    Except String Unit :=
  if storageRoot = EmptyRoot ∨ storageRoot = zero32 then
    if p.value ≠ 0 then .error emptyRootValErr
    else if storageRoot = EmptyRoot then
      if p.proof.all (fun e => e = [0x80]) then .ok () else .error emptyRootEncErr
    else
      if p.proof.all (fun e => e = []) then .ok () else .error zeroRootEncErr
  else
    match proofMap keccak p.proof with
    | .error e => .error (pmWrapErr ++ e)
    | .ok (pm, um) =>
      match verifyProof storageRoot keyHash pm um with
      | .error e => .error (vpWrapErr ++ e)
      | .ok valueOpt =>
        let expected : Option Bytes :=
          match valueOpt with
          | some _ => some (rlpStr (beBytes p.value))
          | none => none
        if expected ≠ valueOpt then .error storMismatchErr else .ok ()

/-! ### The hasher.

Modelled from the spec: `hasher.hashChildren` produces a visited node's
canonical serialized encoding, with each child rendered by the child
reference resolution rule: an empty string for an absent child, the raw
32-byte digest string for a hash reference, the child's own encoding
inlined when the encoding is shorter than the 32-byte hash size, and the
keccak digest of the encoding otherwise.  `asRef = false` computes a
node's full encoding, `asRef = true` its reference inside a parent.
Fuel-structural on the node's depth; an account node's encoding is its
stored canonical record. -/

def nodeEncF (keccak : Bytes → Bytes) : Nat → Bool → Node → Bytes
  | 0, _, _ => []
  | f + 1, true, n =>
    match n with
    | .nilN => rlpStr []
    | .hashn h => rlpStr h
    | .value v => rlpStr v
    | n =>
      let e := nodeEncF keccak f false n
      if e.length < 32 then e else rlpStr (keccak e)
  | f + 1, false, n =>
    match n with
    | .nilN => rlpStr []
    | .hashn h => rlpStr h
    | .value v => rlpStr v
    | .account enc _ => enc
    | .short key val =>
      rlpList (rlpStr (hexToCompact key) ++
        (match val with
         | .value v => rlpStr v
         | c => nodeEncF keccak f true c))
    | .full cs =>
      rlpList
        ((List.range 16).foldr
          (fun i acc => nodeEncF keccak f true (cs.getD i .nilN) ++ acc)
          (match cs.getD 16 .nilN with
           | .value v => rlpStr v
           | _ => rlpStr []))
    | .duo i1 i2 c1 c2 =>
      rlpList
        ((List.range 16).foldr
          (fun i acc =>
            (if i = i1 then nodeEncF keccak f true c1
             else if i = i2 then nodeEncF keccak f true c2
             else rlpStr []) ++ acc)
          (rlpStr []))

/-- Depth fuel for the hasher: canonical tries are far shallower than
this bound (a path consumes at least one nibble per level and keys are at
most 32 bytes). -/
def nodeEncFuel : Nat := 256

/-- A visited node's serialized encoding, as `hasher.hashChildren(n, 0)`
returns it to `Prove`. -/
def hashChildren (keccak : Bytes → Bytes) (n : Node) : Bytes :=
  nodeEncF keccak nodeEncFuel false n

/-- A node's root hash: the keccak digest of its encoding (the trie's
`rootHash`). -/
def nodeHash (keccak : Bytes → Bytes) (n : Node) : Bytes :=
  keccak (hashChildren keccak n)

/-! ### The proof builder. -/

/-- The live trie: its root node (`nilN` when empty). -/
structure Trie where
  RootNode : Node

/-- Loop of source `Prove`, fuel-structural; `acc` is the proof collected
so far.  The loop runs while the remaining key is non-empty and the
current node is non-nil; `fromLevel` suppresses emission of the first
levels. -/
def proveLoopF (keccak : Bytes → Bytes) :
    Nat → Node → Bytes → Nat → Bool → List Bytes →
    Except String (List Bytes)
  | 0, _, _, _, _, _ => .error fuelMsg
  | f + 1, tn, key, fromLevel, storage, proof =>
    match key, tn with
    | [], _ => .ok proof
    | _, .nilN => .ok proof
    | k0 :: krest, .short nKey val =>
      let proof1 := if fromLevel = 0
        then proof ++ [hashChildren keccak (.short nKey val)] else proof
      let nKey1 := if nKey.getLast? = some 16 then nKey.dropLast else nKey
      let fl1 := if 0 < fromLevel then fromLevel - 1 else fromLevel
      if (k0 :: krest).length < nKey1.length ∨
          nKey1 ≠ (k0 :: krest).take nKey1.length then
        proveLoopF keccak f .nilN (k0 :: krest) fl1 storage proof1
      else
        proveLoopF keccak f val ((k0 :: krest).drop nKey1.length) fl1 storage proof1
    | k0 :: krest, .duo i1 i2 c1 c2 =>
      let proof1 := if fromLevel = 0
        then proof ++ [hashChildren keccak (.duo i1 i2 c1 c2)] else proof
      let fl1 := if 0 < fromLevel then fromLevel - 1 else fromLevel
      if k0 = i1 then proveLoopF keccak f c1 krest fl1 storage proof1
      else if k0 = i2 then proveLoopF keccak f c2 krest fl1 storage proof1
      else proveLoopF keccak f .nilN (k0 :: krest) fl1 storage proof1
    | k0 :: krest, .full children =>
      let proof1 := if fromLevel = 0
        then proof ++ [hashChildren keccak (.full children)] else proof
      let fl1 := if 0 < fromLevel then fromLevel - 1 else fromLevel
      proveLoopF keccak f (children.getD k0 .nilN) krest fl1 storage proof1
    | k0 :: krest, .account _ st =>
      if storage then proveLoopF keccak f st (k0 :: krest) fromLevel storage proof
      else proveLoopF keccak f .nilN (k0 :: krest) fromLevel storage proof
    | k0 :: krest, .value _ =>
      proveLoopF keccak f .nilN (k0 :: krest) fromLevel storage proof
    | _, .hashn _ => .error hashNodeProveErr

/-- Source `Prove`: expand the key into nibbles, drop the terminator, and
walk the trie from its root collecting visited node encodings. -/
def Prove (keccak : Bytes → Bytes) (t : Trie) (key : Bytes)
    (fromLevel : Nat) (storage : Bool) : Except String (List Bytes) :=
  let hexKey := (keybytesToHex key).dropLast
  proveLoopF keccak (2 * hexKey.length + 16) t.RootNode hexKey fromLevel storage []

/-! ### A raw trie lookup (the spec's `trie.getRaw`), used to state the
soundness property: follow the key's nibble path through the live trie and
return the stored value bytes, or `none` when the key is absent.
Modelled from the spec. -/

def tGetF : Nat → Node → Bytes → Option Bytes
  | 0, _, _ => none
  | f + 1, tn, key =>
    match tn with
    | .nilN => none
    | .value v => if key = [] then some v else none
    | .short nKey val =>
      if key.length < nKey.length then none
      else if nKey ≠ key.take nKey.length then none
      else tGetF f val (key.drop nKey.length)
    | .duo i1 i2 c1 c2 =>
      match key with
      | [] => none
      | k0 :: krest =>
        if k0 = i1 then tGetF f c1 krest
        else if k0 = i2 then tGetF f c2 krest
        else none
    | .full children =>
      match key with
      | [] => none
      | k0 :: krest => tGetF f (children.getD k0 .nilN) krest
    | .account _ _ => none
    | .hashn _ => none

/-- Raw lookup of a byte key in a trie: hex-expand the key (keeping the
terminator, which leaves carry in their stored path-keys). -/
def tGet (t : Trie) (key : Bytes) : Option Bytes :=
  tGetF (2 * (keybytesToHex key).length + 16) t.RootNode (keybytesToHex key)

/-! ### Concrete instances used by the theorems.

`toyKeccak` is a stand-in digest function: 32 bytes, and injective on the
node encodings appearing in the concrete instances below (which is all the
collision-resistance the statements need; the hash primitive is opaque to
this unit). -/

def toyKeccak (b : Bytes) : Bytes := (b ++ List.replicate 32 0).take 32

/-- A two-key trie: key 0x01 maps to 0x61 and key 0x02 maps to 0x62.
Its root is an extension on nibble 0 over a branch with two leaf children,
all of whose encodings are shorter than 32 bytes. -/
def trie1 : Trie :=
  { RootNode := .short [0] (.full
      [.nilN,
       .short [16] (.value [0x61]),
       .short [16] (.value [0x62]),
       .nilN, .nilN, .nilN, .nilN, .nilN, .nilN, .nilN, .nilN, .nilN,
       .nilN, .nilN, .nilN, .nilN, .nilN]) }

/-- Whether a node is the nil node. -/
def Node.isNil : Node → Bool
  | .nilN => true
  | _ => false

/-- A branch whose only child sits at nibble 3 (an embedded leaf): every
key whose first nibble is not 3 is provably absent below it. -/
def absRoot : Node :=
  .full
    [.nilN, .nilN, .nilN, .short [16] (.value [0x61]),
     .nilN, .nilN, .nilN, .nilN, .nilN, .nilN, .nilN, .nilN,
     .nilN, .nilN, .nilN, .nilN, .nilN]

/-- Serialized encoding of `absRoot`. -/
def absEnc : Bytes := hashChildren toyKeccak absRoot

/-- Root hash committing to `absRoot`. -/
def absHash : Bytes := toyKeccak absEnc

/-- A 32-byte lookup key with first nibble 1 (absent below `absRoot`). -/
def key32 : Bytes := 0x12 :: List.replicate 31 0

/-- An unrelated well-formed node encoding (a one-byte-value leaf). -/
def extraEnc : Bytes := [0xc2, 0x20, 0x62]

/-- A single-leaf trie binding the 32-byte key `key32` to 0x61; the leaf
is the root, so its proof is self-contained and all of it is consumed. -/
def leafTrie32 : Trie := { RootNode := .short (keybytesToHex key32) (.value [0x61]) }

/-- Serialized encoding of `leafTrie32`'s root. -/
def leafEnc32 : Bytes := hashChildren toyKeccak leafTrie32.RootNode

end ETP

deriving instance DecidableEq for Except

namespace ETP

/-! ## Theorems for the claims -/

/-- Claim C1 (code bug, evaluated at the failing input): on the two-key
trie `trie1`, key 0x01 is bound to 0x61, yet feeding `Prove`'s output for
that key into the verification pipeline against the trie's root hash does
not recover the value: `Prove` emits the embedded branch node as a separate
proof entry, the verifier inlines that branch while decoding the root
entry and never consumes the extra entry by hash, and verification fails
with the unused-proof-elements error instead of returning 0x61. -/
theorem c1_soundness_fails_at_trie1 :
    tGet trie1 [0x01] = some [0x61] ∧
    VerifyProofRaw toyKeccak (nodeHash toyKeccak trie1.RootNode) [0x01]
      ((Prove toyKeccak trie1 [0x01] 0 false).toOption.getD []) =
      .error notAllUsedErr := by
  decide

/-- Claim C5 (code bug, evaluated at the failing input): under the
non-empty, non-zero storage root `absHash`, raw verification of the proof
`[absEnc]` for `key32` yields absence, yet `VerifyStorageProofByHash`
accepts a claimed value of 1 with no error: with a nil verified value the
expected encoding is never computed and the final comparison is nil
against nil, so the claimed value is never checked. -/
theorem c5_absent_nonzero_value_accepted :
    VerifyProofRaw toyKeccak absHash key32 [absEnc] = .ok none ∧
    absHash ≠ EmptyRoot ∧ absHash ≠ zero32 ∧
    VerifyStorageProofByHash toyKeccak absHash key32
      { value := 1, proof := [absEnc] } = .ok () := by
  decide

/-- Claim C6, counterexample: `trie1` has a non-nil root, yet `Prove` with
the empty key (and skip level 0) returns the empty proof list, not a list
containing the root encoding: the hex expansion of the empty key is just
the terminator, which `Prove` strips, so its loop never runs. -/
theorem c6_empty_key_cx :
    Node.isNil trie1.RootNode = false ∧
    Prove toyKeccak trie1 [] 0 false = .ok [] := by
  decide

/-- Claim C6, amended: `Prove` called with an empty key and skip level 0
returns the empty proof list on every trie (the root encoding is never
emitted, because the nibble path of the empty key is empty after the
terminator is stripped). -/
theorem c6_empty_key_returns_empty (keccak : Bytes → Bytes) (t : Trie)
    (storage : Bool) : Prove keccak t [] 0 storage = .ok [] := by
  obtain ⟨r⟩ := t
  cases r <;> rfl

/-- Claim C9: whenever the verifier's traversal reaches a branch (full)
node with an empty remaining nibble key, the loop returns the
branch-has-no-value error (and consumes nothing), for every proof map,
used map, counter value and child list. -/
theorem c9_branch_empty_key_errors (pm : List (Bytes × Node)) (f : Nat)
    (used : List (Bytes × RawElem)) (n : Nat) (children : List Node) :
    verifyLoopT pm (f + 1) used n (.full children) [] =
      (.error fullValErr, []) := by
  rfl

/-- Claim C7, counterexample: the 2-item encoding `[0xc2, 0x10, 0x80]` has
a non-terminating compact path-key (first item 0x10) and a literal string
second item, namely the empty string (0x80), yet it decodes without error
(to a short node with a nil child), both through `decodeShort` on the list
payload and through `decodeNode` on the whole encoding. -/
theorem c7_empty_string_decodes :
    exErr (decodeShort [0x10, 0x80]) = none ∧
    exErr (decodeNode [0xc2, 0x10, 0x80]) = none := by
  decide

/-- Claim C7, amended: a 2-item node whose compact path-key is
non-terminating and whose second item is a literal string — any non-list
item, whether classified as a string or as a canonically-encoded single
byte — of any length other than 0 (nil child reference) and 32 (hash
reference) fails to decode with the invalid-string-size error.  (The
empty string decodes to a nil child without error, and a 32-byte string
is a hash reference.) -/
theorem c7_nonterm_literal_errors (elems kbuf rest v rest2 : Bytes)
    (kind : RlpKind)
    (h1 : splitString elems = .ok (kbuf, rest))
    (h2 : (CompactToKeybytes kbuf).terminating = false)
    (h3 : rlpSplit rest = .ok (kind, v, rest2))
    (hk : kind ≠ .listK)
    (h4 : v.length ≠ 0) (h5 : v.length ≠ 32) :
    decodeShort elems = .error strSizeErr := by
  simp only [decodeShort, decShortGo, h1, h2, Bool.false_eq_true, if_false]
  cases kind with
  | listK => exact absurd rfl hk
  | strK => simp [decRefGo, h3, h4, h5]
  | byteK => simp [decRefGo, h3]

/-- Claim C7 witness: a concrete non-terminating 2-item payload whose
second item is the one-byte literal string 0x61 (canonically encoded as a
bare byte) fails to decode. -/
theorem c7_nonterm_literal_errors_w :
    decodeShort [0x10, 0x61] = .error strSizeErr :=
  c7_nonterm_literal_errors [0x10, 0x61] [0x10] [0x61] [0x61] [] .byteK
    (by decide) (by decide) (by decide) (by decide) (by decide) (by decide)

/-- Claim C8: a child reference whose first item is an embedded sub-list
occupying 32 or more serialized bytes is rejected by `decodeRef` with the
oversized-embedded-node error; hence decoding an embedded list succeeds
only if its serialized size is strictly below the 32-byte hash size. -/
theorem c8_oversized_embedded (buf v rest : Bytes)
    (h1 : rlpSplit buf = .ok (.listK, v, rest))
    (h2 : 32 ≤ buf.length - rest.length) :
    decodeRef buf = .error embErr ∧
      ∀ (n : Node) (r2 : Bytes), decodeRef buf ≠ .ok (n, r2) := by
  have h : decodeRef buf = .error embErr := by
    simp [decodeRef, decRefGo, h1, h2]
  exact ⟨h, fun n r2 hc => by rw [h] at hc; cases hc⟩

/-- Claim C8 witness: a 33-byte buffer holding one embedded 32-byte-payload
list is rejected. -/
theorem c8_oversized_embedded_w :
    decodeRef (0xe0 :: List.replicate 32 0) = .error embErr :=
  (c8_oversized_embedded (0xe0 :: List.replicate 32 0) (List.replicate 32 0)
    [] (by decide) (by decide)).1

/-- If any entry of the remaining input list fails to decode, the
`proofMap` loop returns an error, whatever the running index and the maps
accumulated so far. -/
theorem proofMapGo_mem_error (keccak : Bytes → Bytes) (l : List Bytes)
    (p : Bytes) (e : String) :
    ∀ (i : Nat) (pm : List (Bytes × Node)) (um : List (Bytes × RawElem)),
      p ∈ l → exErr (decodeNode p) = some e →
      ∃ e2, proofMapGo keccak i l pm um = .error e2 := by
  induction l with
  | nil => intro i pm um hmem; cases hmem
  | cons q rest ih =>
    intro i pm um hmem herr
    cases hd : decodeNode q with
    | error e2 => exact ⟨e2, by simp [proofMapGo, hd]⟩
    | ok nd =>
      rcases List.mem_cons.mp hmem with hpq | hrest
      · subst hpq; rw [hd] at herr; cases herr
      · obtain ⟨e2, h2⟩ := ih (i + 1) (mapInsert (keccak q) nd pm)
          (mapInsert (keccak q) (i, q) um) hrest herr
        exact ⟨e2, by simp [proofMapGo, hd, h2]⟩

/-- Claim C10: if any entry anywhere in the supplied proof list fails to
decode as a trie node, the map-construction step `proofMap` itself
errors — even when the malformed entry lies off the key's path — and
consequently `VerifyAccountProofByHash` fails for every state root and
account key with that map-construction error (wrapped with the
could-not-construct-proofMap message), before any traversal begins. -/
theorem c10_undecodable_entry_fails (keccak : Bytes → Bytes)
    (proof : List Bytes) (p : Bytes) (e : String) (hmem : p ∈ proof)
    (herr : exErr (decodeNode p) = some e) :
    ∃ e2, proofMap keccak proof = .error e2 ∧
      ∀ (stateRoot accountKey : Bytes) (acc : AccProofResult),
        acc.accountProof = proof →
        VerifyAccountProofByHash keccak stateRoot accountKey acc =
          .error (pmWrapErr ++ e2) := by
  obtain ⟨e2, h2⟩ := proofMapGo_mem_error keccak proof p e 0 [] [] hmem herr
  refine ⟨e2, h2, fun stateRoot accountKey acc hacc => ?_⟩
  simp [VerifyAccountProofByHash, hacc, proofMap, h2]

/-- Claim C10 witness: a proof list holding one well-formed entry and one
undecodable entry (a bare byte, not a list) makes both `proofMap` and
`VerifyAccountProofByHash` fail. -/
theorem c10_undecodable_entry_fails_w :
    (exErr (proofMap toyKeccak [extraEnc, [0x00]])).isSome = true ∧
    (exErr (VerifyAccountProofByHash toyKeccak absHash key32
      { nonce := 0, balance := 0, storageHash := zero32, codeHash := zero32,
        accountProof := [extraEnc, [0x00]] })).isSome = true := by
  obtain ⟨e2, hpm, hacc⟩ := c10_undecodable_entry_fails toyKeccak
    [extraEnc, [0x00]] [0x00] expectedListErr (by decide) (by decide)
  have h3 := hacc absHash key32
    { nonce := 0, balance := 0, storageHash := zero32, codeHash := zero32,
      accountProof := [extraEnc, [0x00]] } rfl
  exact ⟨by simp [hpm, exErr], by simp [h3, exErr]⟩

/-- Claim C4, counterexample: a raw verification yielding absence for
`key32` under `absHash`, claimed with zero nonce, zero balance, the
canonical empty-trie root constant as storage root and the zero digest as
code root, is rejected by `VerifyAccountProofByHash` with the non-empty
storage-hash error — the code accepts only the zero digest, not the
canonical empty-root constant, for an absent account's storage root. -/
theorem c4_emptyroot_absent_errors :
    VerifyProofRaw toyKeccak absHash key32 [absEnc] = .ok none ∧
    VerifyAccountProofByHash toyKeccak absHash key32
      { nonce := 0, balance := 0, storageHash := EmptyRoot, codeHash := zero32,
        accountProof := [absEnc] } = .error storageHashErr := by
  decide

/-- Claim C4, amended: when account proof verification yields absence,
`VerifyAccountProofByHash` succeeds exactly when the claimed nonce is
zero, the claimed balance is zero, the claimed storage root equals the
all-zero digest, and the claimed code root equals the all-zero digest (the
canonical empty-trie root constant is not accepted for either field). -/
theorem c4_absent_iff_zero_fields (keccak : Bytes → Bytes)
    (stateRoot accountKey : Bytes) (p : AccProofResult)
    (h : VerifyProofRaw keccak stateRoot accountKey p.accountProof = .ok none) :
    VerifyAccountProofByHash keccak stateRoot accountKey p = .ok () ↔
      p.nonce = 0 ∧ p.balance = 0 ∧ p.storageHash = zero32 ∧
        p.codeHash = zero32 := by
  cases hpm : proofMap keccak p.accountProof with
  | error e => simp [VerifyProofRaw, hpm] at h
  | ok x =>
    obtain ⟨pm, um⟩ := x
    simp only [VerifyProofRaw, hpm] at h
    simp only [VerifyAccountProofByHash, hpm, h]
    split_ifs <;> simp_all

/-- Claim C4 witness: the absent account claimed with all-zero fields
verifies with no error. -/
theorem c4_absent_iff_zero_fields_w :
    VerifyAccountProofByHash toyKeccak absHash key32
      { nonce := 0, balance := 0, storageHash := zero32, codeHash := zero32,
        accountProof := [absEnc] } = .ok () :=
  (c4_absent_iff_zero_fields toyKeccak absHash key32
    { nonce := 0, balance := 0, storageHash := zero32, codeHash := zero32,
      accountProof := [absEnc] } (by decide)).mpr (by decide)

/-- The consumption trace of the verification loop, from any starting
counter `n`, is a contiguous increasing range beginning at `n`: every
resolution consumes the entry whose original index equals the counter, the
counter then increments, so consumed indices are `n, n+1, ...`. -/
theorem verifyLoopT_trace_range (pm : List (Bytes × Node)) :
    ∀ (f : Nat) (used : List (Bytes × RawElem)) (n : Nat) (node : Node)
      (key : Bytes),
      ∃ k, (verifyLoopT pm f used n node key).2 = List.range' n k := by
  intro f
  induction f with
  | zero => exact fun used n node key => ⟨0, rfl⟩
  | succ f ih =>
    intro used n node key
    cases node with
    | full children =>
      cases key with
      | nil => exact ⟨0, rfl⟩
      | cons k0 krest =>
        cases hc : children.getD k0 .nilN
        all_goals simp only [verifyLoopT, verifyStep, hc]
        case nilN => exact ⟨0, rfl⟩
        all_goals exact ih used n _ krest
    | short shortHex val =>
      simp only [verifyLoopT, verifyStep]
      split_ifs
      · exact ⟨0, rfl⟩
      · exact ⟨0, rfl⟩
      · exact ih used n val (key.drop shortHex.length)
    | hashn hb =>
      simp only [verifyLoopT, verifyStep]
      cases h1 : mapLookup pm (setBytes32 hb) with
      | none => exact ⟨0, rfl⟩
      | some nd =>
        cases h2 : mapLookup used (setBytes32 hb) with
        | none => exact ⟨0, rfl⟩
        | some ir =>
          obtain ⟨i, raw⟩ := ir
          by_cases hn : n ≠ i
          · simp [hn]
          · obtain ⟨k, hk⟩ := ih (mapErase used (setBytes32 hb)) (n + 1) nd key
            refine ⟨k + 1, ?_⟩
            simp only [hn, if_false, List.range'_succ]
            simpa using hk
    | value v =>
      simp only [verifyLoopT, verifyStep]
      split_ifs
      · exact ⟨0, rfl⟩
      · cases used <;> exact ⟨0, rfl⟩
    | nilN => exact ⟨0, rfl⟩
    | duo i1 i2 c1 c2 => exact ⟨0, rfl⟩
    | account enc st => exact ⟨0, rfl⟩

/-- Claim C2: (first part) whatever the proof maps, fuel, starting counter
and traversal state, the original-input indices that the verification loop
consumes form a contiguous strictly increasing range starting at the
counter, so each mapped entry is consumed at most once and consumed
entries appear in strictly increasing original-index order; (second part)
whenever a hash reference resolves to entries of both maps but the entry's
recorded original index differs from the expected-next-index counter, the
loop returns the out-of-order error. -/
theorem c2_consumption_order :
    (∀ (pm : List (Bytes × Node)) (f : Nat) (used : List (Bytes × RawElem))
        (n : Nat) (node : Node) (key : Bytes),
      ∃ k, (verifyLoopT pm f used n node key).2 = List.range' n k) ∧
    (∀ (pm : List (Bytes × Node)) (f : Nat) (used : List (Bytes × RawElem))
        (n : Nat) (hb : Bytes) (i : Nat) (raw : Bytes) (key : Bytes),
      (mapLookup pm (setBytes32 hb)).isSome = true →
      mapLookup used (setBytes32 hb) = some (i, raw) →
      n ≠ i →
      (verifyLoopT pm (f + 1) used n (.hashn hb) key).1 = .error orderErr) := by
  refine ⟨verifyLoopT_trace_range, ?_⟩
  intro pm f used n hb i raw key h1 h2 h3
  obtain ⟨nd, hnd⟩ := Option.isSome_iff_exists.mp h1
  simp [verifyLoopT, verifyStep, hnd, h2, h3]

/-- Claim C2 witness: with the counter at 0 but the looked-up entry
recorded at original index 5, resolution fails with the out-of-order
error. -/
theorem c2_consumption_order_w :
    (verifyLoopT [(zero32, Node.value [])] 3 [(zero32, (5, []))] 0
      (.hashn zero32) []).1 = .error orderErr :=
  c2_consumption_order.2 [(zero32, Node.value [])] 2 [(zero32, (5, []))] 0
    zero32 5 [] [] (by decide) (by decide) (by decide)

/-! ### Helper lemmas about the association-list maps. -/

theorem mapLookup_append_some {α : Type} (a b : List (Bytes × α)) (k : Bytes)
    (x : α) (h : mapLookup a k = some x) : mapLookup (a ++ b) k = some x := by
  induction a with
  | nil => cases h
  | cons p rest ih =>
    obtain ⟨k0, v0⟩ := p
    by_cases hk : k0 = k
    · simpa [mapLookup, hk] using h
    · simp only [mapLookup, hk, if_false] at h
      simpa [mapLookup, hk] using ih h

theorem mapLookup_erase_none {α : Type} (m : List (Bytes × α)) (k k2 : Bytes)
    (h : mapLookup m k2 = none) : mapLookup (mapErase m k) k2 = none := by
  induction m with
  | nil => rfl
  | cons p rest ih =>
    obtain ⟨k0, v0⟩ := p
    by_cases hk : k0 = k2
    · simp [mapLookup, hk] at h
    · simp only [mapLookup, hk, if_false] at h
      by_cases hke : k0 = k
      · simpa [mapErase, hke] using ih h
      · simpa [mapErase, hke, mapLookup, hk] using ih h

theorem mapErase_append_single {α : Type} (m : List (Bytes × α)) (k k2 : Bytes)
    (x : α) (h : k2 ≠ k) :
    mapErase (m ++ [(k2, x)]) k = mapErase m k ++ [(k2, x)] := by
  simp [mapErase, List.filter_append, h]

theorem mapLookup_insert_other {α : Type} (m : List (Bytes × α)) (k h : Bytes)
    (v : α) (hk : k ≠ h) : mapLookup (mapInsert k v m) h = mapLookup m h := by
  induction m with
  | nil => simp [mapInsert, mapLookup, hk]
  | cons p rest ih =>
    obtain ⟨k0, v0⟩ := p
    by_cases h0 : k0 = k
    · simp [mapInsert, mapLookup, h0, hk, Ne.symm hk]
    · by_cases h1 : k0 = h <;>
        simp [mapInsert, mapLookup, h0, h1, ih, Ne.symm hk]

theorem mapInsert_fresh {α : Type} (m : List (Bytes × α)) (k : Bytes) (v : α)
    (h : mapLookup m k = none) : mapInsert k v m = m ++ [(k, v)] := by
  induction m with
  | nil => rfl
  | cons p rest ih =>
    obtain ⟨k0, v0⟩ := p
    by_cases hk : k0 = k
    · simp [mapLookup, hk] at h
    · simp only [mapLookup, hk, if_false] at h
      simp [mapInsert, hk, ih h]

/-! ### Helper lemmas about `proofMap`. -/

/-- Appending one entry to the input list of a successful `proofMap` loop
post-composes it with one decode-and-insert step (the entry receiving the
next input index). -/
theorem proofMapGo_append_ok (keccak : Bytes → Bytes) (l : List Bytes)
    (x : Bytes) :
    ∀ (i : Nat) (pm pm2 : List (Bytes × Node))
      (um um2 : List (Bytes × RawElem)),
      proofMapGo keccak i l pm um = .ok (pm2, um2) →
      proofMapGo keccak i (l ++ [x]) pm um =
        match decodeNode x with
        | .error e => .error e
        | .ok nd =>
          .ok (mapInsert (keccak x) nd pm2,
            mapInsert (keccak x) (i + l.length, x) um2) := by
  induction l with
  | nil =>
    intro i pm pm2 um um2 hgo
    simp only [proofMapGo, Except.ok.injEq, Prod.mk.injEq] at hgo
    obtain ⟨rfl, rfl⟩ := hgo
    cases hd : decodeNode x with
    | error e => simp [proofMapGo, hd]
    | ok nd => simp [proofMapGo, hd]
  | cons q rest ih =>
    intro i pm pm2 um um2 hgo
    simp only [proofMapGo] at hgo
    cases hd : decodeNode q with
    | error e => rw [hd] at hgo; cases hgo
    | ok nd =>
      rw [hd] at hgo
      rw [List.cons_append]
      simp only [proofMapGo, hd]
      rw [ih (i + 1) (mapInsert (keccak q) nd pm) pm2
        (mapInsert (keccak q) (i, q) um) um2 hgo]
      have harith : i + 1 + rest.length = i + (q :: rest).length := by
        simp only [List.length_cons]
        omega
      rw [harith]

/-- A key fresh for the accumulated maps and distinct from the digest of
every remaining entry stays absent from the maps the `proofMap` loop
returns. -/
theorem proofMapGo_lookup_none (keccak : Bytes → Bytes) (l : List Bytes)
    (h : Bytes) :
    ∀ (i : Nat) (pm pm2 : List (Bytes × Node))
      (um um2 : List (Bytes × RawElem)),
      proofMapGo keccak i l pm um = .ok (pm2, um2) →
      mapLookup pm h = none → mapLookup um h = none →
      (∀ p ∈ l, h ≠ keccak p) →
      mapLookup pm2 h = none ∧ mapLookup um2 h = none := by
  induction l with
  | nil =>
    intro i pm pm2 um um2 hgo hpm hum _
    simp only [proofMapGo, Except.ok.injEq, Prod.mk.injEq] at hgo
    obtain ⟨rfl, rfl⟩ := hgo
    exact ⟨hpm, hum⟩
  | cons q rest ih =>
    intro i pm pm2 um um2 hgo hpm hum hfresh
    simp only [proofMapGo] at hgo
    cases hd : decodeNode q with
    | error e => rw [hd] at hgo; cases hgo
    | ok nd =>
      rw [hd] at hgo
      have hq : h ≠ keccak q := hfresh q (List.mem_cons_self q rest)
      refine ih (i + 1) (mapInsert (keccak q) nd pm) pm2
        (mapInsert (keccak q) (i, q) um) um2 hgo ?_ ?_
        (fun p hp => hfresh p (List.mem_cons_of_mem q hp))
      · rw [mapLookup_insert_other _ _ _ _ (fun he => hq he.symm)]; exact hpm
      · rw [mapLookup_insert_other _ _ _ _ (fun he => hq he.symm)]; exact hum

/-! ### Fuel monotonicity and the fresh-extra-entry transfer for the
verification loop. -/

/-- Adding one unit of fuel does not change a loop run that did not end in
fuel exhaustion. -/
theorem verifyLoopT_mono_succ (pm : List (Bytes × Node)) :
    ∀ (f : Nat) (used : List (Bytes × RawElem)) (n : Nat) (node : Node)
      (key : Bytes),
      (verifyLoopT pm f used n node key).1 ≠ .error fuelMsg →
      verifyLoopT pm (f + 1) used n node key =
        verifyLoopT pm f used n node key := by
  intro f
  induction f with
  | zero => intro used n node key h; simp [verifyLoopT] at h
  | succ f ih =>
    intro used n node key h
    rw [show verifyLoopT pm (f + 1) used n node key =
      verifyStep pm (verifyLoopT pm f) used n node key from rfl] at h
    show verifyStep pm (verifyLoopT pm (f + 1)) used n node key =
      verifyStep pm (verifyLoopT pm f) used n node key
    cases node with
    | full children =>
      cases key with
      | nil => rfl
      | cons k0 krest =>
        cases hc : children.getD k0 .nilN
        all_goals simp only [verifyStep, hc] at h ⊢
        all_goals exact ih used n _ krest h
    | short shortHex val =>
      simp only [verifyStep] at h ⊢
      split_ifs at h ⊢
      · rfl
      · rfl
      · exact ih used n val (key.drop shortHex.length) h
    | hashn hb =>
      simp only [verifyStep] at h ⊢
      cases h1 : mapLookup pm (setBytes32 hb) with
      | none => simp [h1]
      | some nd =>
        cases h2 : mapLookup used (setBytes32 hb) with
        | none => simp [h1, h2]
        | some ir =>
          obtain ⟨i, raw⟩ := ir
          simp only [h1, h2] at h ⊢
          by_cases hn : n ≠ i
          · simp [hn]
          · simp only [hn, if_false] at h ⊢
            rw [ih (mapErase used (setBytes32 hb)) (n + 1) nd key h]
    | value v => rfl
    | nilN => rfl
    | duo i1 i2 c1 c2 => rfl
    | account enc st => rfl

/-- Any amount of extra fuel preserves a loop run that did not end in fuel
exhaustion. -/
theorem verifyLoopT_mono_le (pm : List (Bytes × Node)) (f g : Nat)
    (hle : f ≤ g) (used : List (Bytes × RawElem)) (n : Nat) (node : Node)
    (key : Bytes) (h : (verifyLoopT pm f used n node key).1 ≠ .error fuelMsg) :
    verifyLoopT pm g used n node key = verifyLoopT pm f used n node key := by
  induction g, hle using Nat.le_induction with
  | base => rfl
  | succ g hfg ih =>
    rw [verifyLoopT_mono_succ pm g used n node key (by rw [ih]; exact h), ih]

/-- Appending one fresh entry (absent from both maps) to the maps of a
loop run that returns a value turns the run into the
unused-proof-elements error: the traversal is unchanged step by step, and
the fresh entry is still unconsumed when the value node is reached. -/
theorem verifyLoopT_fresh_extra (pm : List (Bytes × Node)) (h2 : Bytes)
    (nd2 : Node) (e2 : RawElem) :
    ∀ (f : Nat) (used : List (Bytes × RawElem)) (n : Nat) (node : Node)
      (key : Bytes) (v : Bytes),
      mapLookup used h2 = none →
      (verifyLoopT pm f used n node key).1 = .ok (some v) →
      (verifyLoopT (pm ++ [(h2, nd2)]) f (used ++ [(h2, e2)]) n node
        key).1 = .error notAllUsedErr := by
  intro f
  induction f with
  | zero => intro used n node key v _ hacc; simp [verifyLoopT] at hacc
  | succ f ih =>
    intro used n node key v hum hacc
    rw [show verifyLoopT pm (f + 1) used n node key =
      verifyStep pm (verifyLoopT pm f) used n node key from rfl] at hacc
    show (verifyStep (pm ++ [(h2, nd2)])
      (verifyLoopT (pm ++ [(h2, nd2)]) f) (used ++ [(h2, e2)]) n node
      key).1 = .error notAllUsedErr
    cases node with
    | full children =>
      cases key with
      | nil => simp [verifyStep] at hacc
      | cons k0 krest =>
        cases hc : children.getD k0 .nilN
        all_goals simp only [verifyStep, hc] at hacc ⊢
        case nilN => simp at hacc
        all_goals exact ih used n _ krest v hum hacc
    | short shortHex val =>
      simp only [verifyStep] at hacc ⊢
      by_cases hlen : key.length < shortHex.length
      · rw [if_pos hlen] at hacc
        simp at hacc
      · rw [if_neg hlen] at hacc ⊢
        by_cases hpre : shortHex ≠ key.take shortHex.length
        · rw [if_pos hpre] at hacc
          simp at hacc
        · rw [if_neg hpre] at hacc ⊢
          exact ih used n val (key.drop shortHex.length) v hum hacc
    | hashn hb =>
      simp only [verifyStep] at hacc ⊢
      cases h1 : mapLookup pm (setBytes32 hb) with
      | none => simp [h1] at hacc
      | some nd =>
        rw [h1] at hacc
        cases h2l : mapLookup used (setBytes32 hb) with
        | none => rw [h2l] at hacc; simp at hacc
        | some ir =>
          obtain ⟨i, raw⟩ := ir
          rw [h2l] at hacc
          by_cases hn : n ≠ i
          · simp [hn] at hacc
          · simp only [hn, if_false] at hacc
            have hne : h2 ≠ setBytes32 hb := by
              intro he
              rw [he] at hum
              rw [hum] at h2l
              cases h2l
            rw [mapLookup_append_some pm [(h2, nd2)] _ _ h1,
              mapLookup_append_some used [(h2, e2)] _ _ h2l]
            simp only [hn, if_false]
            rw [mapErase_append_single used (setBytes32 hb) h2 e2 hne]
            exact ih (mapErase used (setBytes32 hb)) (n + 1) nd key v
              (mapLookup_erase_none used (setBytes32 hb) h2 hum) hacc
    | value vv =>
      simp only [verifyStep] at hacc ⊢
      by_cases hk : key ≠ []
      · simp [hk] at hacc
      · simp only [hk, if_false] at hacc ⊢
        cases used with
        | nil => rfl
        | cons u rest => simp at hacc
    | nilN => simp [verifyStep] at hacc
    | duo i1 i2 c1 c2 => simp [verifyStep] at hacc
    | account enc st => simp [verifyStep] at hacc

/-- Claim C3, counterexample: the proof `[absEnc]` is accepted with an
absence result for `key32` under `absHash`, the entry `extraEnc` is an
unrelated well-formed node encoding (it decodes, and its digest differs
from the digest of every proof entry), yet appending it still yields the
accepted absence result with no error: the unused-entries check runs only
when a value node is reached, and absence returns before it. -/
theorem c3_absence_extra_accepted :
    VerifyProofRaw toyKeccak absHash key32 [absEnc] = .ok none ∧
    exErr (decodeNode extraEnc) = none ∧
    toyKeccak extraEnc ≠ toyKeccak absEnc ∧
    VerifyProofRaw toyKeccak absHash key32 [absEnc, extraEnc] = .ok none := by
  decide

/-- Claim C3, amended: for every proof that `VerifyProof` accepts with a
value result, appending one additional unrelated (fresh-digest),
well-formed node encoding makes verification fail with the
unused-proof-elements error.  (For proofs accepted with an absence result
the appended entry goes undetected and verification still succeeds, per
the counterexample.) -/
theorem c3_value_extra_errors (keccak : Bytes → Bytes)
    (root key extra : Bytes) (proof : List Bytes) (v : Bytes)
    (hacc : VerifyProofRaw keccak root key proof = .ok (some v))
    (hdec : exErr (decodeNode extra) = none)
    (hfresh : ∀ p ∈ proof, keccak extra ≠ keccak p) :
    VerifyProofRaw keccak root key (proof ++ [extra]) =
      .error notAllUsedErr := by
  cases hnd : decodeNode extra with
  | error e => rw [hnd] at hdec; cases hdec
  | ok nd =>
    cases hpm : proofMap keccak proof with
    | error e => simp [VerifyProofRaw, hpm] at hacc
    | ok pmum =>
      obtain ⟨pm, um⟩ := pmum
      have h0 : verifyProof root key pm um = .ok (some v) := by
        simpa [VerifyProofRaw, hpm] using hacc
      have hgo : proofMapGo keccak 0 proof [] [] = .ok (pm, um) := hpm
      have hfr := proofMapGo_lookup_none keccak proof (keccak extra) 0 [] pm
        [] um hgo rfl rfl hfresh
      have hpm2 : proofMap keccak (proof ++ [extra]) =
          .ok (pm ++ [(keccak extra, nd)],
            um ++ [(keccak extra, (proof.length, extra))]) := by
        show proofMapGo keccak 0 (proof ++ [extra]) [] [] = _
        rw [proofMapGo_append_ok keccak proof extra 0 [] pm [] um hgo, hnd]
        simp only [Nat.zero_add,
          mapInsert_fresh pm (keccak extra) nd hfr.1,
          mapInsert_fresh um (keccak extra) (proof.length, extra) hfr.2]
      have h1 : (verifyLoopT pm (verifyFuel um (keybytesToHex key)) um 0
          (.hashn root) (keybytesToHex key)).1 = .ok (some v) := h0
      have hle : verifyFuel um (keybytesToHex key) ≤
          verifyFuel (um ++ [(keccak extra, (proof.length, extra))])
            (keybytesToHex key) := by
        simp only [verifyFuel, List.map_append, List.sum_append,
          List.length_append]
        simp
        omega
      have h2 : (verifyLoopT pm
          (verifyFuel (um ++ [(keccak extra, (proof.length, extra))])
            (keybytesToHex key)) um 0
          (.hashn root) (keybytesToHex key)).1 = .ok (some v) := by
        rw [verifyLoopT_mono_le pm (verifyFuel um (keybytesToHex key)) _ hle
          um 0 (.hashn root) (keybytesToHex key)
          (by rw [h1]; intro hcon; cases hcon)]
        exact h1
      have h3 := verifyLoopT_fresh_extra pm (keccak extra) nd
        (proof.length, extra)
        (verifyFuel (um ++ [(keccak extra, (proof.length, extra))])
          (keybytesToHex key)) um 0 (.hashn root) (keybytesToHex key) v
        hfr.2 h2
      simp only [VerifyProofRaw, hpm2]
      exact h3

/-- Claim C3 witness: the single-leaf inclusion proof for `key32` is
accepted with value 0x61, and appending the unrelated entry `extraEnc`
makes it fail with the unused-proof-elements error. -/
theorem c3_value_extra_errors_w :
    VerifyProofRaw toyKeccak (nodeHash toyKeccak leafTrie32.RootNode) key32
      [leafEnc32, extraEnc] = .error notAllUsedErr :=
  c3_value_extra_errors toyKeccak (nodeHash toyKeccak leafTrie32.RootNode)
    key32 extraEnc [leafEnc32] [0x61] (by decide) (by decide) (by decide)

end ETP
